import Mathlib

set_option maxHeartbeats 1000000

/-!
Shallow embedding of the ArcaVox audio core (src/audio) in Lean 4, covering the
pitch model (src/audio/src/pitch.rs), the sample-indexed time model
(src/audio/src/stream/mod.rs) and the ring-buffer / windowing machinery
(src/audio/src/stream/buffer.rs).  Sample values (f32 in the source) are never
computed with by the buffer code, only moved, so the buffer types are
polymorphic in the sample type; the pitch-conversion arithmetic is embedded
over the reals.  Rust panics (assert!, unwrap, out-of-range indexing) are
modelled by Option/Except none/error results.
-/

/-- Embeds the Rust enum Semitone (pitch.rs) with discriminants C = 0 .. B = 11. -/
inductive Semitone where
  | C
  | Cs
  | D
  | Ds
  | E
  | F
  | Fs
  | G
  | Gs
  | A
  | As
  | B
  deriving DecidableEq, Repr, Fintype

/-- Discriminant of a Semitone, as produced by the Rust casts (s as u8 / as i32). -/
def Semitone.toIdx : Semitone → Nat
  | Semitone.C => 0
  | Semitone.Cs => 1
  | Semitone.D => 2
  | Semitone.Ds => 3
  | Semitone.E => 4
  | Semitone.F => 5
  | Semitone.Fs => 6
  | Semitone.G => 7
  | Semitone.Gs => 8
  | Semitone.A => 9
  | Semitone.As => 10
  | Semitone.B => 11

/-- Embeds Semitone::from_i32 (derived FromPrimitive): the inverse of the
discriminant mapping, none outside 0..11. -/
def Semitone.from_i32 (n : Int) : Option Semitone :=
  match n with
  | 0 => some Semitone.C
  | 1 => some Semitone.Cs
  | 2 => some Semitone.D
  | 3 => some Semitone.Ds
  | 4 => some Semitone.E
  | 5 => some Semitone.F
  | 6 => some Semitone.Fs
  | 7 => some Semitone.G
  | 8 => some Semitone.Gs
  | 9 => some Semitone.A
  | 10 => some Semitone.As
  | 11 => some Semitone.B
  | _ => none

/-- Embeds the private Rust enum Sign (pitch.rs). -/
inductive Sign where
  | flat
  | none
  | sharp
  deriving DecidableEq, Repr

/-- Error values of the pitch module.  The Rust code reports errors as formatted
strings; each format is modelled by one constructor carrying the {val} payload
("Empty note", "Bad sign: {val}", "Bad note: {val}", "Trailing garbage: {val}",
"Bad octave: {val}: {e}" - the {e} detail of the octave parse is dropped). -/
inductive PitchError where
  | emptyNote
  | badSign (val : String)
  | badNote (val : String)
  | trailingGarbage (val : String)
  | badOctave (val : String)
  deriving DecidableEq, Repr

/-- Embeds Semitone::try_from_prefix (pitch.rs lines 32-98): consume a leading
note letter and an optional accidental, and return the parsed semitone together
with the remaining characters.  The name avoids the Rust suffix for technical
reasons; the structure follows the source: first char is the letter, the second
char (if any) is examined for a sharp/flat marker and consumed only when it is
one, then the letter/sign pair is mapped through the match table. -/
def Semitone.try_from_head (val : String) : Except PitchError (Semitone × String) :=
  match val.data with
  | [] => Except.error PitchError.emptyNote
  | letter :: rest =>
    let signRemain : Sign × List Char :=
      match rest with
      | [] => (Sign.none, [])
      | ch :: rest2 =>
        match ch with
        | '♯' => (Sign.sharp, rest2)
        | '#' => (Sign.sharp, rest2)
        | 's' => (Sign.sharp, rest2)
        | '♭' => (Sign.flat, rest2)
        | 'b' => (Sign.flat, rest2)
        | _ => (Sign.none, ch :: rest2)
    let semitone : Except PitchError Semitone :=
      match letter, signRemain.1 with
      | 'C', Sign.flat => Except.error (PitchError.badSign val)
      | 'C', Sign.none => Except.ok Semitone.C
      | 'C', Sign.sharp => Except.ok Semitone.Cs
      | 'D', Sign.flat => Except.ok Semitone.Cs
      | 'D', Sign.none => Except.ok Semitone.D
      | 'D', Sign.sharp => Except.ok Semitone.Ds
      | 'E', Sign.flat => Except.ok Semitone.Ds
      | 'E', Sign.none => Except.ok Semitone.E
      | 'E', Sign.sharp => Except.error (PitchError.badSign val)
      | 'F', Sign.flat => Except.error (PitchError.badSign val)
      | 'F', Sign.none => Except.ok Semitone.F
      | 'F', Sign.sharp => Except.ok Semitone.Fs
      | 'G', Sign.flat => Except.ok Semitone.Fs
      | 'G', Sign.none => Except.ok Semitone.G
      | 'G', Sign.sharp => Except.ok Semitone.Gs
      | 'A', Sign.flat => Except.ok Semitone.Gs
      | 'A', Sign.none => Except.ok Semitone.A
      | 'A', Sign.sharp => Except.ok Semitone.As
      | 'B', Sign.flat => Except.ok Semitone.As
      | 'B', Sign.none => Except.ok Semitone.B
      | 'B', Sign.sharp => Except.error (PitchError.badSign val)
      | _, _ => Except.error (PitchError.badNote val)
    semitone.map (fun s => (s, String.mk signRemain.2))

/-- Embeds impl TryFrom<&str> for Semitone (pitch.rs lines 101-116). -/
def Semitone.tryFrom (val : String) : Except PitchError Semitone :=
  match Semitone.try_from_head val with
  | Except.ok (semitone, remain) =>
    if remain.isEmpty then Except.ok semitone
    else Except.error (PitchError.trailingGarbage val)
  | Except.error e => Except.error e

/-- Embeds impl fmt::Display for Semitone (pitch.rs lines 118-135): the
canonical sharp spelling. -/
def Semitone.format : Semitone → String
  | Semitone.C => "C"
  | Semitone.Cs => "C♯"
  | Semitone.D => "D"
  | Semitone.Ds => "D♯"
  | Semitone.E => "E"
  | Semitone.F => "F"
  | Semitone.Fs => "F♯"
  | Semitone.G => "G"
  | Semitone.Gs => "G♯"
  | Semitone.A => "A"
  | Semitone.As => "A♯"
  | Semitone.B => "B"

/-- Digit-string accumulator used by the i16 parse model: some value when the
character list is nonempty and all ASCII digits. -/
def digitsToNat (ds : List Char) : Option Nat :=
  if ds.isEmpty then none
  else
    ds.foldl
      (fun acc c =>
        match acc with
        | Option.none => Option.none
        | some n => if c.isDigit then some (n * 10 + (c.toNat - 48)) else Option.none)
      (some 0)

/-- Embeds str::parse::<i16> as used for the octave suffix: an optional leading
sign, then one or more ASCII digits, with the resulting value required to be in
the i16 range (Rust reports overflow as a parse error, equivalent to this final
range check); anything else is a parse error, modelled as none. -/
def parse_i16 (s : String) : Option Int :=
  let signDigits : Bool × List Char :=
    match s.data with
    | '+' :: r => (false, r)
    | '-' :: r => (true, r)
    | r => (false, r)
  match digitsToNat signDigits.2 with
  | Option.none => Option.none
  | some n =>
    let v : Int := if signDigits.1 then -(n : Int) else (n : Int)
    if -32768 ≤ v ∧ v ≤ 32767 then some v else Option.none

/-- Embeds the Rust struct Pitch (pitch.rs): octave (i16, modelled as Int),
semitone, and a cents detune (f32, modelled as a real). -/
structure Pitch where
  octave : Int
  semitone : Semitone
  cents : ℝ

/-- Embeds impl TryFrom<&str> for Pitch (pitch.rs lines 165-184): a semitone
head followed by an i16 octave; a failing octave parse (including any trailing
unparsed text) is the "Bad octave" error. -/
def Pitch.tryFrom (val : String) : Except PitchError Pitch :=
  match Semitone.try_from_head val with
  | Except.ok (semitone, remain) =>
    match parse_i16 remain with
    | some octave => Except.ok { octave := octave, semitone := semitone, cents := 0 }
    | Option.none => Except.error (PitchError.badOctave val)
  | Except.error e => Except.error e

/-- Projection of the error of a pitch parse, used to state results about which
error a parse fails with without needing decidable equality on Pitch (whose
cents field is real-valued). -/
def pitchErrOf (x : Except PitchError Pitch) : Option PitchError :=
  match x with
  | Except.error e => some e
  | Except.ok _ => Option.none

/-- Embeds the newtype Hz(f32) (lib.rs), over the reals. -/
structure Hz where
  val : ℝ

/-- Embeds f32::round: round half away from zero (Mathlib round rounds half
up, which agrees on nonnegative input; negative input is negated first). -/
noncomputable def rustRound (x : ℝ) : Int :=
  if 0 ≤ x then round x else -(round (-x))

/-- Embeds the Rust struct Tuning (pitch.rs lines 212-215). -/
structure Tuning where
  ref_freq : ℝ
  ref_pitch : Pitch

/-- Embeds the constant Tuning::A440 (pitch.rs lines 218-225). -/
noncomputable def Tuning.A440 : Tuning :=
  { ref_freq := 440
    ref_pitch := { octave := 4, semitone := Semitone.A, cents := 0 } }

/-- Embeds Tuning::pitch_from (pitch.rs lines 227-239) over ℝ: f32 log2 becomes
Real.logb 2, f32 round becomes rustRound, div_euclid/rem_euclid on i32 become
Int.ediv/Int.emod, and the Semitone::from_i32(..).unwrap() is modelled with
getD (the emod result is always in 0..11 so from_i32 never yields none).  The
final i32-to-i16 truncating cast of the octave count is modelled as the
identity on Int (it only differs beyond 32767 octaves). -/
noncomputable def Tuning.pitch_from (t : Tuning) (freq : Hz) : Pitch :=
  let semitones0 : ℝ := Real.logb 2 (freq.val / t.ref_freq) * 12
  let semitones1 : ℝ := semitones0 + (t.ref_pitch.semitone.toIdx : ℝ)
  let cents : ℝ := (semitones1 - ((rustRound semitones1 : Int) : ℝ)) * 100
  let s : Int := rustRound semitones1
  let octaves : Int := Int.ediv s 12
  let semitone : Semitone := (Semitone.from_i32 (Int.emod s 12)).getD Semitone.C
  { octave := octaves + t.ref_pitch.octave, semitone := semitone, cents := cents }

/-- Embeds Tuning::freq_from (pitch.rs lines 241-250) over ℝ: the i32 semitone
offset arithmetic, then f32::powf(2.0, x) as the real power (2 : ℝ) ^ x. -/
noncomputable def Tuning.freq_from (t : Tuning) (pitch : Pitch) : Hz :=
  let steps : Int :=
    (pitch.semitone.toIdx : Int) + (pitch.octave - t.ref_pitch.octave) * 12
      - (t.ref_pitch.semitone.toIdx : Int)
  let semitones : ℝ := (steps : ℝ) + pitch.cents / 100
  Hz.mk (t.ref_freq * (2 : ℝ) ^ (semitones / 12))

/-- Embeds the Rust struct Instant (stream/mod.rs): an absolute sample index
tagged with a sample rate.  SampleRate (a u32 newtype) and ChannelCount (a u16
newtype) are modelled as plain Nat. -/
structure Instant where
  sample_index : Nat
  sample_rate : Nat
  deriving DecidableEq, Repr

/-- Embeds the Rust struct Duration (stream/mod.rs). -/
structure Duration where
  sample_count : Nat
  sample_rate : Nat
  deriving DecidableEq, Repr

/-- Embeds Instant::index (stream/mod.rs lines 90-94); the assert_eq on the
rate is modelled by none. -/
def Instant.index (i : Instant) (rate : Nat) : Option Nat :=
  if i.sample_rate = rate then some i.sample_index else Option.none

/-- Embeds impl Ord for Instant (stream/mod.rs lines 102-107): the assert_eq on
the two rates (a panic on mismatch) is modelled by none, then the sample
indices are compared. -/
def Instant.cmp (a b : Instant) : Option Ordering :=
  if a.sample_rate = b.sample_rate then some (compare a.sample_index b.sample_index)
  else Option.none

/-- Embeds impl Sub<Instant> for Instant (stream/mod.rs lines 148-157):
checked_sub(..).unwrap() of the indices, with none modelling the unwrap panic
on underflow.  Note that the source performs NO check that the two rates agree
and tags the result with the left operand rate. -/
def Instant.sub (a b : Instant) : Option Duration :=
  if b.sample_index ≤ a.sample_index then
    some { sample_count := a.sample_index - b.sample_index, sample_rate := a.sample_rate }
  else Option.none

/-- Embeds the Rust struct stream::Period (stream/mod.rs lines 179-209), the
logical window descriptor handed to SampleBuffer::get_window.  (It is distinct
from buffer::Period, embedded below as BufferPeriod.) -/
structure StreamPeriod where
  start_index : Nat
  sample_count : Nat
  sample_rate : Nat
  deriving DecidableEq, Repr

/-- Embeds Period::start. -/
def StreamPeriod.start (p : StreamPeriod) : Instant :=
  { sample_index := p.start_index, sample_rate := p.sample_rate }

/-- Embeds Period::end (renamed since end is a Lean keyword). -/
def StreamPeriod.endTime (p : StreamPeriod) : Instant :=
  { sample_index := p.start_index + p.sample_count, sample_rate := p.sample_rate }

/-- Model of std VecDeque as SampleBuffer uses it: a fixed-capacity ring
(reserve_exact at construction; eviction keeps len at most cap, so it never
reallocates).  elems lists the logical contents front to back; head is the
physical slot of the front element, so logical element i sits at physical slot
(head + i) % cap, which is what determines as_slices. -/
structure VecDeque (α : Type) where
  cap : Nat
  head : Nat
  elems : List α
  deriving DecidableEq, Repr

/-- Embeds VecDeque::len. -/
def VecDeque.len {α : Type} (d : VecDeque α) : Nat := d.elems.length

/-- Embeds VecDeque::push_back in the non-reallocating regime (len < cap at
every call the source makes, except in the degenerate max_len = 0 case where
only the logical contents matter below). -/
def VecDeque.push_back {α : Type} (d : VecDeque α) (s : α) : VecDeque α :=
  { d with elems := d.elems ++ [s] }

/-- Embeds VecDeque::pop_front with the popped value discarded (as the source
does): on an empty deque nothing changes, otherwise the front element is
removed and the physical front slot advances by one modulo the capacity. -/
def VecDeque.pop_front {α : Type} (d : VecDeque α) : VecDeque α :=
  match d.elems with
  | [] => d
  | _ :: rest => { d with head := (d.head + 1) % d.cap, elems := rest }

/-- Embeds VecDeque::as_slices: the contiguous physical run from the front
slot, then the wrapped-around remainder. -/
def VecDeque.as_slices {α : Type} (d : VecDeque α) : List α × List α :=
  if d.head + d.elems.length ≤ d.cap then (d.elems, [])
  else (d.elems.take (d.cap - d.head), d.elems.drop (d.cap - d.head))

/-- Embeds the Rust struct Frame (stream/mod.rs lines 212-216): one interleaved
block of samples. -/
structure Frame (α : Type) where
  channels : Nat
  sample_rate : Nat
  samples : List α
  deriving DecidableEq, Repr

/-- Embeds the Rust struct SampleBuffer (stream/buffer.rs lines 16-22). -/
structure SampleBuffer (α : Type) where
  max_len : Nat
  channels : Nat
  sample_rate : Nat
  buffers : List (VecDeque α)
  sample_count : Nat
  deriving DecidableEq, Repr

/-- Embeds SampleBuffer::new (buffer.rs lines 27-41). -/
def SampleBuffer.new (α : Type) (channels sample_rate max_len : Nat) : SampleBuffer α :=
  { max_len := max_len
    channels := channels
    sample_rate := sample_rate
    buffers := List.replicate channels { cap := max_len, head := 0, elems := [] }
    sample_count := 0 }

/-- Embeds SampleBuffer::len (buffer.rs lines 54-56). -/
def SampleBuffer.len {α : Type} (b : SampleBuffer α) : Nat :=
  min b.sample_count b.max_len

/-- Embeds SampleBuffer::oldest_sample_index (buffer.rs lines 58-60). -/
def SampleBuffer.oldest_sample_index {α : Type} (b : SampleBuffer α) : Nat :=
  b.sample_count - b.len

/-- Embeds one iteration of the SampleBuffer::push de-interlacing loop body for
one channel ring: evict the oldest element if the ring is at max_len, then
append the new sample. -/
def SampleBuffer.pushSample {α : Type} (maxLen : Nat) (d : VecDeque α) (s : α) : VecDeque α :=
  if d.elems.length = maxLen then (d.pop_front).push_back s else d.push_back s

/-- Embeds the SampleBuffer::push de-interlacing loop (buffer.rs lines 70-76):
sample number i of the frame goes to channel ring i % channels.  Indexing
buffers[ch] is modelled with getD/set; construction makes buffers.length =
channels and ch = i % channels < channels, so on well-formed buffers these
total operations agree with the panicking Rust indexing. -/
def SampleBuffer.pushLoop {α : Type} (maxLen channels : Nat) (bufs : List (VecDeque α))
    (samples : List α) (i : Nat) : List (VecDeque α) :=
  match samples with
  | [] => bufs
  | s :: rest =>
    let ch := i % channels
    SampleBuffer.pushLoop maxLen channels
      (bufs.set ch (SampleBuffer.pushSample maxLen (bufs.getD ch (VecDeque.mk maxLen 0 [])) s))
      rest (i + 1)

/-- Embeds SampleBuffer::push (buffer.rs lines 63-77).  The three assert!s are
modelled by returning none (a Rust panic); the 0 < channels guard models the
fact that len % 0 itself panics in Rust before the comparison. -/
def SampleBuffer.push {α : Type} (b : SampleBuffer α) (f : Frame α) : Option (SampleBuffer α) :=
  if f.channels = b.channels ∧ f.sample_rate = b.sample_rate ∧
      0 < b.channels ∧ f.samples.length % b.channels = 0 then
    some { b with
      sample_count := b.sample_count + f.samples.length / b.channels
      buffers := SampleBuffer.pushLoop b.max_len b.channels b.buffers f.samples 0 }
  else Option.none

/-- Embeds the Rust struct buffer::Period (buffer.rs lines 148-152), a window
view into a SampleBuffer.  The Rust borrow of the buffer is modelled by storing
the buffer value. -/
structure BufferPeriod (α : Type) where
  buffer : SampleBuffer α
  start_sample_num : Nat
  len : Nat
  deriving DecidableEq, Repr

/-- Embeds SampleBuffer::get_window (buffer.rs lines 118-128): the rate
assert inside Instant::index and the two window-availability assert!s are
modelled by none. -/
def SampleBuffer.get_window {α : Type} (b : SampleBuffer α) (period : StreamPeriod) :
    Option (BufferPeriod α) :=
  match (StreamPeriod.start period).index b.sample_rate with
  | Option.none => Option.none
  | some start_index =>
    if b.oldest_sample_index ≤ start_index then
      match (StreamPeriod.endTime period).index b.sample_rate with
      | Option.none => Option.none
      | some end_index =>
        if end_index ≤ b.sample_count then
          some { buffer := b, len := end_index - start_index, start_sample_num := start_index }
        else Option.none
    else Option.none

/-- Embeds Rust slice indexing s[i..j]: defined (some) exactly when
i ≤ j ≤ s.len, otherwise a panic (none). -/
def listSlice {α : Type} (l : List α) (i j : Nat) : Option (List α) :=
  if i ≤ j ∧ j ≤ l.length then some ((l.drop i).take (j - i)) else Option.none

/-- Embeds Period::get_channel (buffer.rs lines 159-196).  Out-of-range channel
indexing, the checked_sub(..).unwrap(), and every slice indexing panic are
modelled by none.  (The usize subtraction sample_count - start_sample_num is
Nat subtraction; every Period the source constructs satisfies
start_sample_num ≤ sample_count.) -/
def BufferPeriod.get_channel {α : Type} (p : BufferPeriod α) (channel : Nat) :
    Option (List α × List α) :=
  match p.buffer.buffers.get? channel with
  | Option.none => Option.none
  | some d =>
    let segs := d.as_slices
    let first_segment := segs.1
    let second_segment := segs.2
    let len_to_buffer_end := p.buffer.sample_count - p.start_sample_num
    if len_to_buffer_end ≤ p.buffer.len then
      let start := p.buffer.len - len_to_buffer_end
      let stop := start + p.len
      if start < first_segment.length then
        if stop ≤ first_segment.length then
          match listSlice first_segment start stop with
          | some s1 => some (s1, [])
          | Option.none => Option.none
        else
          match listSlice first_segment start first_segment.length,
                listSlice second_segment 0 (stop - first_segment.length) with
          | some s1, some s2 => some (s1, s2)
          | _, _ => Option.none
      else
        match listSlice second_segment (start - first_segment.length)
                (stop - first_segment.length) with
        | some s1 => some (s1, [])
        | Option.none => Option.none
    else Option.none

/-- Embeds the Rust struct PeriodBuffer (buffer.rs lines 293-298). -/
structure PeriodBuffer (α : Type) where
  buffer : SampleBuffer α
  period_len : Nat
  period_stride : Nat
  next_period_end : Nat
  deriving DecidableEq, Repr

/-- Embeds PeriodBuffer::new (buffer.rs lines 304-313); the assert on the
initial buffer is modelled by none. -/
def PeriodBuffer.new {α : Type} (buffer : SampleBuffer α) (period_len period_stride : Nat) :
    Option (PeriodBuffer α) :=
  if buffer.sample_count ≤ buffer.max_len then
    some { buffer := buffer, period_len := period_len, period_stride := period_stride,
           next_period_end := period_len }
  else Option.none

/-- Embeds PeriodBuffer::push (buffer.rs lines 315-327): forward to the inner
buffer push, then assert that the next period start has not been evicted. -/
def PeriodBuffer.push {α : Type} (pb : PeriodBuffer α) (f : Frame α) : Option (PeriodBuffer α) :=
  match pb.buffer.push f with
  | Option.none => Option.none
  | some b2 =>
    let next_period_start := pb.next_period_end - pb.period_len
    if b2.oldest_sample_index ≤ next_period_start then some { pb with buffer := b2 }
    else Option.none

/-- Embeds PeriodBuffer::has_next (buffer.rs lines 329-331). -/
def PeriodBuffer.has_next {α : Type} (pb : PeriodBuffer α) : Bool :=
  pb.next_period_end ≤ pb.buffer.sample_count

/-- Embeds PeriodBuffer::next (buffer.rs lines 335-347), returning the
optional period together with the successor state (&mut self). -/
def PeriodBuffer.next {α : Type} (pb : PeriodBuffer α) :
    Option (BufferPeriod α) × PeriodBuffer α :=
  if pb.has_next then
    (some { buffer := pb.buffer, len := pb.period_len,
            start_sample_num := pb.next_period_end - pb.period_len },
     { pb with next_period_end := pb.next_period_end + pb.period_stride })
  else (Option.none, pb)

/-- Embeds the Rust struct FrameAccumulator (buffer.rs lines 397-402). -/
structure FrameAccumulator (α : Type) where
  channels : Nat
  sample_rate : Nat
  frame_len : Nat
  samples : List α
  deriving DecidableEq, Repr

/-- Embeds FrameAccumulator::new (buffer.rs lines 409-421); the assert_eq on
frame_len % channels is modelled by none, and channels = 0 is none because
frame_len % 0 itself panics in Rust. -/
def FrameAccumulator.new (α : Type) (channels sample_rate frame_len : Nat) :
    Option (FrameAccumulator α) :=
  if channels = 0 then Option.none
  else if frame_len % channels = 0 then
    some { channels := channels, sample_rate := sample_rate, frame_len := frame_len,
           samples := [] }
  else Option.none

/-- Embeds Step::push_input for FrameAccumulator (buffer.rs lines 435-437). -/
def FrameAccumulator.push_input {α : Type} (a : FrameAccumulator α) (input : α) :
    FrameAccumulator α :=
  { a with samples := a.samples ++ [input] }

/-- Embeds Step::pop_output for FrameAccumulator (buffer.rs lines 439-451):
when exactly frame_len samples have accumulated, emit them as a Frame and swap
in a fresh empty accumulation buffer; otherwise emit nothing. -/
def FrameAccumulator.pop_output {α : Type} (a : FrameAccumulator α) :
    Option (Frame α) × FrameAccumulator α :=
  if a.samples.length = a.frame_len then
    (some { channels := a.channels, sample_rate := a.sample_rate, samples := a.samples },
     { a with samples := [] })
  else (Option.none, a)

/-- Decidable equality for Except results (not provided by this toolchain),
used to evaluate parse results on concrete inputs. -/
instance {ε α : Type} [DecidableEq ε] [DecidableEq α] : DecidableEq (Except ε α) := fun x y =>
  match x, y with
  | Except.ok a, Except.ok b =>
    if h : a = b then Decidable.isTrue (by rw [h])
    else Decidable.isFalse (by intro he; cases he; exact h rfl)
  | Except.ok _, Except.error _ => Decidable.isFalse (by intro he; cases he)
  | Except.error _, Except.ok _ => Decidable.isFalse (by intro he; cases he)
  | Except.error e1, Except.error e2 =>
    if h : e1 = e2 then Decidable.isTrue (by rw [h])
    else Decidable.isFalse (by intro he; cases he; exact h rfl)

/-- Channel extraction from a flat interleaved sample list: the samples whose
flat index j satisfies (i + j) % channels = c, in order, where i is the flat
index of the first listed sample.  This is the specification-side counterpart
of the push loop (sample at flat index i goes to channel i mod channels). -/
def deinter {α : Type} (channels : Nat) (i : Nat) (samples : List α) (c : Nat) : List α :=
  match samples with
  | [] => []
  | s :: rest =>
    if i % channels = c then s :: deinter channels (i + 1) rest c
    else deinter channels (i + 1) rest c

/-- Last n elements of a list (all of it when it is shorter). -/
def lastN {α : Type} (n : Nat) (l : List α) : List α :=
  l.drop (l.length - n)

/-- Retained samples of channel c: the logical contents of that channel ring. -/
def SampleBuffer.retained {α : Type} (b : SampleBuffer α) (c : Nat) : List α :=
  (b.buffers.getD c (VecDeque.mk 0 0 [])).elems

/-- Length of the older physical ring segment of channel c, as returned by
as_slices. -/
def SampleBuffer.firstSegLen {α : Type} (b : SampleBuffer α) (c : Nat) : Nat :=
  ((b.buffers.getD c (VecDeque.mk 0 0 [])).as_slices).1.length

/-- Logical buffer invariant relating a SampleBuffer to the per-channel history
of all samples ever pushed to it: sample_count is the per-channel total, and
each channel ring retains exactly the last min(sample_count, max_len) samples
of its history, in arrival order. -/
def SampleBuffer.inv {α : Type} (b : SampleBuffer α) (hist : Nat → List α) : Prop :=
  b.buffers.length = b.channels ∧
  ∀ c, c < b.channels →
    (hist c).length = b.sample_count ∧
    (b.buffers.getD c (VecDeque.mk 0 0 [])).elems = lastN b.len (hist c)

/-- Physical well-formedness of a SampleBuffer, as established by new and
preserved by push: one ring per channel, each with capacity max_len, front
slot inside the capacity, and exactly min(sample_count, max_len) elements. -/
def SampleBuffer.wf {α : Type} (b : SampleBuffer α) : Prop :=
  b.buffers.length = b.channels ∧
  ∀ c, c < b.channels →
    (b.buffers.getD c (VecDeque.mk 0 0 [])).cap = b.max_len ∧
    (b.buffers.getD c (VecDeque.mk 0 0 [])).head < b.max_len ∧
    (b.buffers.getD c (VecDeque.mk 0 0 [])).elems.length = b.len

/-- One mutation step of a PeriodBuffer: a successful push, or a call to next
(in either branch of its availability test). -/
inductive PBStep {α : Type} : PeriodBuffer α → PeriodBuffer α → Prop where
  | push (pb pb2 : PeriodBuffer α) (f : Frame α) :
      pb.push f = some pb2 → PBStep pb pb2
  | next (pb : PeriodBuffer α) : PBStep pb (pb.next).2

/-- Reachability by any interleaving of successful pushes and next calls. -/
inductive PBReach {α : Type} : PeriodBuffer α → PeriodBuffer α → Prop where
  | refl (pb : PeriodBuffer α) : PBReach pb pb
  | tail {a b c : PeriodBuffer α} : PBReach a b → PBStep b c → PBReach a c

/-- Concrete scenario from the specification: a capacity-8 mono ring at rate 1
fed the samples 0..11; four evictions have happened, so the ring has wrapped
(front slot 4) and retains 4..11. -/
def demoBuf : SampleBuffer Int :=
  { max_len := 8, channels := 1, sample_rate := 1,
    buffers := [{ cap := 8, head := 4, elems := [4, 5, 6, 7, 8, 9, 10, 11] }],
    sample_count := 12 }

/-- Window [6, 10) of demoBuf, as get_window returns it. -/
def demoWin : BufferPeriod Int :=
  { buffer := demoBuf, start_sample_num := 6, len := 4 }

/-- Concrete sequencer state for the period-stream scenario: length-4/stride-2
over a capacity-100 mono buffer holding samples 1..7. -/
def demoPB : PeriodBuffer Int :=
  { buffer := { max_len := 100, channels := 1, sample_rate := 44100,
                buffers := [{ cap := 100, head := 0, elems := [1, 2, 3, 4, 5, 6, 7] }],
                sample_count := 7 },
    period_len := 4, period_stride := 2, next_period_end := 4 }

/-- The state of demoPB after one more sample (8) has been pushed and the
first three next calls have been made. -/
def demoPB4 : PeriodBuffer Int :=
  { buffer := { max_len := 100, channels := 1, sample_rate := 44100,
                buffers := [{ cap := 100, head := 0, elems := [1, 2, 3, 4, 5, 6, 7, 8] }],
                sample_count := 8 },
    period_len := 4, period_stride := 2, next_period_end := 8 }

/-- Result of pushing the interleaved frame [1,2,3,4] (2 channels) into a
fresh capacity-100 buffer: channel 0 retains [1,3], channel 1 retains [2,4]. -/
def c2demoBuf : SampleBuffer Int :=
  { max_len := 100, channels := 2, sample_rate := 44100,
    buffers := [{ cap := 100, head := 0, elems := [1, 3] },
                { cap := 100, head := 0, elems := [2, 4] }],
    sample_count := 2 }

/-- Freshly constructed length-4/stride-2 sequencer over an empty capacity-100
mono buffer at rate 44100. -/
def c10pb0 : PeriodBuffer Int :=
  { buffer := SampleBuffer.new Int 1 44100 100,
    period_len := 4, period_stride := 2, next_period_end := 4 }

/-- First window the sequencer demoPB hands out. -/
def c10win : BufferPeriod Int :=
  { buffer := demoPB.buffer, start_sample_num := 0, len := 4 }

/-- The frame of samples 1..7 used by the sequencer scenarios. -/
def c10frame : Frame Int :=
  { channels := 1, sample_rate := 44100, samples := [1, 2, 3, 4, 5, 6, 7] }

/-- Inductive invariant of a PeriodBuffer: the inner buffer is well formed,
next_period_end never falls below period_len, and the start of the next
scheduled window has not been evicted. -/
def PeriodBuffer.wfInv {α : Type} (pb : PeriodBuffer α) : Prop :=
  pb.buffer.wf ∧ pb.period_len ≤ pb.next_period_end ∧
  pb.buffer.oldest_sample_index ≤ pb.next_period_end - pb.period_len

/-- Helper: folding push_input appends the pushed scalars to the accumulation
buffer in push order. -/
theorem foldl_push_input {α : Type} (xs : List α) (a : FrameAccumulator α) :
    xs.foldl FrameAccumulator.push_input a =
      { a with samples := a.samples ++ xs } := by
  induction xs generalizing a with
  | nil => simp
  | cons x t ih =>
    simp only [List.foldl_cons, ih, FrameAccumulator.push_input, List.append_assoc,
      List.singleton_append]

/-- C8: for every one of the 12 Semitone values s, parsing the rendered
canonical string round-trips: Semitone.tryFrom (format s) succeeds and
returns s. -/
theorem semitone_roundtrip_c8 :
    ∀ s : Semitone, Semitone.tryFrom (Semitone.format s) = Except.ok s := by decide

/-- C9: semitone head parsing maps every letter-plus-accidental combination
with a natural mapping to one of the 12 canonical semitones (including the
enharmonic pairs, e.g. D♭ and C♯ both parse to C♯, and the alternate
accidental spellings #, s, b), and each of the four combinations with no
natural mapping - E♯, B♯, C♭, F♭ - fails with the bad-sign error. -/
theorem semitone_head_table_c9 :
    (Semitone.try_from_head "C" = Except.ok (Semitone.C, "") ∧
     Semitone.try_from_head "C♯" = Except.ok (Semitone.Cs, "") ∧
     Semitone.try_from_head "D♭" = Except.ok (Semitone.Cs, "") ∧
     Semitone.try_from_head "D" = Except.ok (Semitone.D, "") ∧
     Semitone.try_from_head "D♯" = Except.ok (Semitone.Ds, "") ∧
     Semitone.try_from_head "E♭" = Except.ok (Semitone.Ds, "") ∧
     Semitone.try_from_head "E" = Except.ok (Semitone.E, "") ∧
     Semitone.try_from_head "F" = Except.ok (Semitone.F, "") ∧
     Semitone.try_from_head "F♯" = Except.ok (Semitone.Fs, "") ∧
     Semitone.try_from_head "G♭" = Except.ok (Semitone.Fs, "") ∧
     Semitone.try_from_head "G" = Except.ok (Semitone.G, "") ∧
     Semitone.try_from_head "G♯" = Except.ok (Semitone.Gs, "") ∧
     Semitone.try_from_head "A♭" = Except.ok (Semitone.Gs, "") ∧
     Semitone.try_from_head "A" = Except.ok (Semitone.A, "") ∧
     Semitone.try_from_head "A♯" = Except.ok (Semitone.As, "") ∧
     Semitone.try_from_head "B♭" = Except.ok (Semitone.As, "") ∧
     Semitone.try_from_head "B" = Except.ok (Semitone.B, "") ∧
     Semitone.try_from_head "C#" = Except.ok (Semitone.Cs, "") ∧
     Semitone.try_from_head "Cs" = Except.ok (Semitone.Cs, "") ∧
     Semitone.try_from_head "Db" = Except.ok (Semitone.Cs, "") ∧
     Semitone.try_from_head "Bb" = Except.ok (Semitone.As, "")) ∧
    (Semitone.try_from_head "E♯" = Except.error (PitchError.badSign "E♯") ∧
     Semitone.try_from_head "B♯" = Except.error (PitchError.badSign "B♯") ∧
     Semitone.try_from_head "C♭" = Except.error (PitchError.badSign "C♭") ∧
     Semitone.try_from_head "F♭" = Except.error (PitchError.badSign "F♭")) := by
  and_intros <;> decide

/-- C5 counterexample: full pitch parsing of "F♯4ZZZ" (valid semitone head,
then an octave followed by leftover text) fails with the bad-octave error, not
with the trailing-garbage error the claim names. -/
theorem pitch_trailing_c5_cex :
    pitchErrOf (Pitch.tryFrom "F♯4ZZZ") = some (PitchError.badOctave "F♯4ZZZ") ∧
    pitchErrOf (Pitch.tryFrom "F♯4ZZZ") ≠ some (PitchError.trailingGarbage "F♯4ZZZ") := by
  decide

/-- C5 amended: for every input string in which a valid semitone head is
followed by text that fails the signed i16 octave parse (for example a valid
octave with leftover unparsed text, as in "F♯4ZZZ"), full pitch parsing fails
with the bad-octave error (the trailing-garbage error belongs to bare semitone
parsing only). -/
theorem pitch_bad_octave_c5 (val rem : String) (s : Semitone)
    (hhead : Semitone.try_from_head val = Except.ok (s, rem))
    (hoct : parse_i16 rem = Option.none) :
    Pitch.tryFrom val = Except.error (PitchError.badOctave val) := by
  simp only [Pitch.tryFrom, hhead, hoct]

/-- C5 witness: the amended theorem applied at "F♯4ZZZ". -/
theorem pitch_bad_octave_c5_witness :
    Pitch.tryFrom "F♯4ZZZ" = Except.error (PitchError.badOctave "F♯4ZZZ") :=
  pitch_bad_octave_c5 "F♯4ZZZ" "4ZZZ" Semitone.Fs (by decide) (by decide)

/-- C4 counterexample: subtracting Instants whose rates differ does NOT fail:
it succeeds and tags the Duration with the left operand rate (while comparison
of the same pair does panic on its rate assert). -/
theorem instant_rates_c4_cex :
    Instant.sub { sample_index := 5, sample_rate := 2 }
        { sample_index := 3, sample_rate := 1 } =
      some { sample_count := 2, sample_rate := 2 } ∧
    Instant.cmp { sample_index := 5, sample_rate := 2 }
        { sample_index := 3, sample_rate := 1 } = Option.none := by
  decide

/-- C4 amended: comparing Instants fails (panics on its rate assertion)
exactly when the rates differ, and compares the sample indices when they
agree; subtraction, by contrast, performs no rate check at all - it succeeds
if and only if the index subtraction does not underflow, regardless of rates,
and tags the result with the left operand rate. -/
theorem instant_rates_c4 (a b : Instant) :
    (a.sample_rate ≠ b.sample_rate → Instant.cmp a b = Option.none) ∧
    (a.sample_rate = b.sample_rate →
      Instant.cmp a b = some (compare a.sample_index b.sample_index)) ∧
    Instant.sub a b =
      (if b.sample_index ≤ a.sample_index then
        some { sample_count := a.sample_index - b.sample_index,
               sample_rate := a.sample_rate }
       else Option.none) := by
  refine ⟨fun h => ?_, fun h => ?_, rfl⟩ <;> simp [Instant.cmp, h]

/-- C4 witness: the amended theorem applied to the rate-2/rate-1 pair. -/
theorem instant_rates_c4_witness :
    Instant.cmp { sample_index := 5, sample_rate := 2 }
        { sample_index := 3, sample_rate := 1 } = Option.none ∧
    Instant.cmp { sample_index := 42, sample_rate := 1 }
        { sample_index := 32, sample_rate := 1 } = some Ordering.gt :=
  ⟨(instant_rates_c4 { sample_index := 5, sample_rate := 2 }
      { sample_index := 3, sample_rate := 1 }).1 (by decide),
   by
    have h := (instant_rates_c4 { sample_index := 42, sample_rate := 1 }
      { sample_index := 32, sample_rate := 1 }).2.1 rfl
    rw [h]; decide⟩

/-- C2 counterexample: with max_len = 0 the eviction test (len == max_len)
only fires while the ring is empty, so pushing one sample leaves the ring
holding 1 sample although min(sample_count, max_len) = 0; the stated invariant
is not preserved by this push. -/
theorem sample_buffer_inv_c2_cex :
    ((SampleBuffer.new Int 1 1 0).push
        { channels := 1, sample_rate := 1, samples := [5] }).map
      (fun b => ((SampleBuffer.retained b 0).length, b.len)) = some (1, 0) := by
  decide

/-- C3: has_next is true exactly when the buffer sample_count has reached
next_period_end; next returns the window covering
[next_period_end - period_len, next_period_end) and advances next_period_end
by period_stride when a window is available, and returns nothing leaving the
state unchanged otherwise.  In particular the length-4/stride-2 sequencer fed
samples 1..7 yields windows [1,2,3,4] then [3,4,5,6] then nothing, and after
one more sample (8) yields [5,6,7,8]. -/
theorem period_stream_c3 {α : Type} (pb : PeriodBuffer α) :
    (pb.has_next = true ↔ pb.next_period_end ≤ pb.buffer.sample_count) ∧
    (pb.next =
      if pb.next_period_end ≤ pb.buffer.sample_count then
        (some { buffer := pb.buffer, len := pb.period_len,
                start_sample_num := pb.next_period_end - pb.period_len },
         { pb with next_period_end := pb.next_period_end + pb.period_stride })
      else (Option.none, pb)) ∧
    (PeriodBuffer.new (SampleBuffer.new Int 1 44100 100) 4 2 =
      some { buffer := SampleBuffer.new Int 1 44100 100, period_len := 4,
             period_stride := 2, next_period_end := 4 } ∧
     PeriodBuffer.push
        { buffer := SampleBuffer.new Int 1 44100 100, period_len := 4,
          period_stride := 2, next_period_end := 4 }
        { channels := 1, sample_rate := 44100, samples := [1, 2, 3, 4, 5, 6, 7] } =
      some demoPB ∧
     (demoPB.next).1.map (fun w => w.get_channel 0) = some (some ([1, 2, 3, 4], [])) ∧
     ((demoPB.next).2.next).1.map (fun w => w.get_channel 0) =
       some (some ([3, 4, 5, 6], [])) ∧
     (((demoPB.next).2.next).2.next).1 = Option.none ∧
     (((demoPB.next).2.next).2.next).2 = ((demoPB.next).2.next).2 ∧
     PeriodBuffer.push (((demoPB.next).2.next).2.next).2
        { channels := 1, sample_rate := 44100, samples := [8] } = some demoPB4 ∧
     (demoPB4.next).1.map (fun w => w.get_channel 0) = some (some ([5, 6, 7, 8], []))) := by
  refine ⟨?_, ?_, ?_⟩
  · simp [PeriodBuffer.has_next]
  · by_cases h : pb.next_period_end ≤ pb.buffer.sample_count <;>
      simp [PeriodBuffer.next, PeriodBuffer.has_next, h]
  · and_intros <;> decide

/-- C6: a FrameAccumulator is constructible exactly when frame_len is a
multiple of the (positive) channel count; starting from the construction (or
post-emission) state, pushing a list of scalars and then popping yields one
Frame tagged with the configured channel count and rate containing exactly
those scalars in push order and resets the accumulation buffer when exactly
frame_len scalars were pushed, and yields nothing (leaving the state as is)
otherwise. -/
theorem frame_accumulator_c6 {α : Type} (channels rate flen : Nat) (xs : List α)
    (h0 : 0 < channels) :
    (FrameAccumulator.new α channels rate flen =
      if flen % channels = 0 then
        some { channels := channels, sample_rate := rate, frame_len := flen, samples := [] }
      else Option.none) ∧
    ((xs.foldl FrameAccumulator.push_input
        { channels := channels, sample_rate := rate, frame_len := flen,
          samples := [] }).pop_output =
      if xs.length = flen then
        (some { channels := channels, sample_rate := rate, samples := xs },
         { channels := channels, sample_rate := rate, frame_len := flen, samples := [] })
      else
        (Option.none,
         { channels := channels, sample_rate := rate, frame_len := flen, samples := xs })) := by
  constructor
  · unfold FrameAccumulator.new
    rw [if_neg (Nat.pos_iff_ne_zero.mp h0)]
  · rw [foldl_push_input]
    simp only [List.nil_append]
    by_cases h : xs.length = flen <;> simp [FrameAccumulator.pop_output, h]

/-- C6 witness: the theorem applied to a mono accumulator with frame_len 4 and
the four scalars 0,1,2,3. -/
theorem frame_accumulator_c6_witness :
    (FrameAccumulator.new Int 1 44100 4 =
      if 4 % 1 = 0 then
        some { channels := 1, sample_rate := 44100, frame_len := 4, samples := [] }
      else Option.none) ∧
    (FrameAccumulator.pop_output
        (([0, 1, 2, 3] : List Int).foldl FrameAccumulator.push_input
          { channels := 1, sample_rate := 44100, frame_len := 4, samples := [] }) =
      if ([0, 1, 2, 3] : List Int).length = 4 then
        (some { channels := 1, sample_rate := 44100, samples := [0, 1, 2, 3] },
         { channels := 1, sample_rate := 44100, frame_len := 4, samples := [] })
      else
        (Option.none,
         { channels := 1, sample_rate := 44100, frame_len := 4,
           samples := [0, 1, 2, 3] })) :=
  frame_accumulator_c6 1 44100 4 [0, 1, 2, 3] (by decide)

/-- C7: Tuning.A440.pitch_from(440 Hz) equals the pitch A4 exactly (semitone
A, octave 4, zero cents), and Tuning.A440.freq_from(A4) equals 440 Hz exactly.
(At this input every floating-point operation of the source - log2(1),
round(9), powf(2, 0) - is exact, so the real-valued embedding agrees with the
f32 computation.) -/
theorem tuning_a440_c7 :
    Tuning.A440.pitch_from (Hz.mk 440) =
      { octave := 4, semitone := Semitone.A, cents := 0 } ∧
    Tuning.A440.freq_from { octave := 4, semitone := Semitone.A, cents := 0 } =
      Hz.mk 440 := by
  constructor
  · unfold Tuning.pitch_from Tuning.A440
    simp only [Semitone.toIdx]
    have h1 : (440 : ℝ) / 440 = 1 := by norm_num
    rw [h1, Real.logb_one]
    have h9 : (0 : ℝ) * 12 + ((9 : Nat) : ℝ) = ((9 : Int) : ℝ) := by norm_num
    rw [h9]
    have hr : rustRound ((9 : Int) : ℝ) = 9 := by
      unfold rustRound
      rw [if_pos (by norm_num), round_intCast]
    rw [hr]
    norm_num [Semitone.from_i32]
  · unfold Tuning.freq_from Tuning.A440
    simp only [Semitone.toIdx]
    norm_num

theorem getD_set_self {α : Type} (l : List α) (i : Nat) (a d : α) (h : i < l.length) :
    (l.set i a).getD i d = a := by
  rw [List.getD_eq_getElem _ _ (by simpa using h)]
  simp [List.getElem_set, h]

theorem getD_set_other {α : Type} (l : List α) (i j : Nat) (a d : α) (h : i ≠ j) :
    (l.set i a).getD j d = l.getD j d := by
  rw [List.getD_eq_getD_get?, List.getD_eq_getD_get?, List.get?_set_ne _ _ h]

theorem getD_irrel {α : Type} (l : List α) (i : Nat) (d1 d2 : α) (h : i < l.length) :
    l.getD i d1 = l.getD i d2 := by
  rw [List.getD_eq_getElem _ _ h, List.getD_eq_getElem _ _ h]

theorem getD_replicate_lt {α : Type} (n c : Nat) (x d : α) (h : c < n) :
    (List.replicate n x).getD c d = x := by
  rw [List.getD_eq_getElem _ _ (by simpa using h)]
  simp

theorem pushSample_elems {α : Type} (ml : Nat) (hml : 1 ≤ ml) (d : VecDeque α) (s : α)
    (hle : d.elems.length ≤ ml) :
    (SampleBuffer.pushSample ml d s).elems =
      (d.elems ++ [s]).drop (d.elems.length + 1 - ml) := by
  obtain ⟨cap, head, elems⟩ := d
  dsimp only at hle
  unfold SampleBuffer.pushSample VecDeque.pop_front VecDeque.push_back
  dsimp only
  by_cases h : elems.length = ml
  · rw [if_pos h]
    cases elems with
    | nil => simp at h; omega
    | cons x t =>
      dsimp only
      have h1 : (x :: t).length + 1 - ml = 1 := by simp at h ⊢; omega
      rw [h1]
      simp
  · rw [if_neg h]
    have h0 : elems.length + 1 - ml = 0 := by omega
    rw [h0, List.drop_zero]

theorem pushSample_phys {α : Type} (ml : Nat) (d : VecDeque α) (s : α)
    (hcap : d.cap = ml) (hhead : d.head < ml) :
    (SampleBuffer.pushSample ml d s).cap = ml ∧
      (SampleBuffer.pushSample ml d s).head < ml := by
  obtain ⟨cap, head, elems⟩ := d
  dsimp only at hcap hhead
  unfold SampleBuffer.pushSample VecDeque.pop_front VecDeque.push_back
  dsimp only
  by_cases h : elems.length = ml
  · rw [if_pos h]
    cases elems with
    | nil => exact ⟨hcap, hhead⟩
    | cons x t =>
      dsimp only
      refine ⟨hcap, ?_⟩
      rw [hcap]
      exact Nat.mod_lt _ (by omega)
  · rw [if_neg h]
    exact ⟨hcap, hhead⟩

theorem foldl_pushSample_elems {α : Type} (ml : Nat) (hml : 1 ≤ ml) (l : List α) :
    ∀ (d : VecDeque α), d.elems.length ≤ ml →
      (List.foldl (SampleBuffer.pushSample ml) d l).elems =
        (d.elems ++ l).drop (d.elems.length + l.length - ml) := by
  induction l with
  | nil =>
    intro d hd
    simp only [List.foldl_nil, List.length_nil, Nat.add_zero, List.append_nil]
    rw [Nat.sub_eq_zero_of_le hd, List.drop_zero]
  | cons s t ih =>
    intro d hd
    rw [List.foldl_cons]
    have hstep := pushSample_elems ml hml d s hd
    have hlen2 : (SampleBuffer.pushSample ml d s).elems.length ≤ ml := by
      rw [hstep, List.length_drop, List.length_append]
      simp only [List.length_cons, List.length_nil]
      omega
    rw [ih _ hlen2, hstep]
    have hx : (List.drop (d.elems.length + 1 - ml) (d.elems ++ [s])) ++ t
        = List.drop (d.elems.length + 1 - ml) ((d.elems ++ [s]) ++ t) :=
      (List.drop_append_of_le_length (by simp)).symm
    rw [hx, List.drop_drop, List.append_assoc, List.singleton_append]
    congr 1
    simp only [List.length_drop, List.length_append, List.length_cons, List.length_nil]
    omega

theorem foldl_pushSample_phys {α : Type} (ml : Nat) (l : List α) :
    ∀ (d : VecDeque α), d.cap = ml → d.head < ml →
      (List.foldl (SampleBuffer.pushSample ml) d l).cap = ml ∧
        (List.foldl (SampleBuffer.pushSample ml) d l).head < ml := by
  induction l with
  | nil => exact fun d h1 h2 => ⟨h1, h2⟩
  | cons s t ih =>
    intro d h1 h2
    rw [List.foldl_cons]
    obtain ⟨h1s, h2s⟩ := pushSample_phys ml d s h1 h2
    exact ih _ h1s h2s

theorem deinter_append {α : Type} (channels c : Nat) (l1 l2 : List α) :
    ∀ i, deinter channels i (l1 ++ l2) c =
      deinter channels i l1 c ++ deinter channels (i + l1.length) l2 c := by
  induction l1 with
  | nil => intro i; simp [deinter]
  | cons s t ih =>
    intro i
    have harith : i + 1 + t.length = i + (t.length + 1) := by omega
    by_cases h : i % channels = c
    · simp only [List.cons_append, deinter, if_pos h, List.append_eq, ih (i + 1),
        List.length_cons, harith]
    · simp only [List.cons_append, deinter, if_neg h, List.append_eq, ih (i + 1),
        List.length_cons, harith]

theorem deinter_shift {α : Type} (channels c : Nat) (l : List α) :
    ∀ i, deinter channels (i + channels) l c = deinter channels i l c := by
  induction l with
  | nil => intro i; rfl
  | cons s t ih =>
    intro i
    simp only [deinter, Nat.add_mod_right]
    have harith : i + channels + 1 = i + 1 + channels := by omega
    rw [harith, ih (i + 1)]

theorem deinter_block {α : Type} (channels c : Nat) (hc : c < channels) (l : List α) :
    ∀ i, i < channels → l.length + i = channels →
      (deinter channels i l c).length = if i ≤ c then 1 else 0 := by
  induction l with
  | nil =>
    intro i hi hlen
    simp only [List.length_nil, Nat.zero_add] at hlen
    omega
  | cons s t ih =>
    intro i hi hlen
    simp only [List.length_cons] at hlen
    have him : i % channels = i := Nat.mod_eq_of_lt hi
    by_cases hchan : i + 1 < channels
    · have hrec := ih (i + 1) hchan (by omega)
      simp only [deinter, him]
      by_cases hieq : i = c
      · rw [if_pos hieq, List.length_cons, hrec, if_neg (by omega), if_pos (by omega)]
      · rw [if_neg hieq, hrec]
        by_cases hlec : i ≤ c
        · rw [if_pos (by omega), if_pos hlec]
        · rw [if_neg (by omega), if_neg hlec]
    · have ht : t = [] := by
        have : t.length = 0 := by omega
        exact List.eq_nil_of_length_eq_zero this
      subst ht
      simp only [deinter, him]
      by_cases hieq : i = c
      · rw [if_pos hieq]
        simp only [deinter, List.length_cons, List.length_nil]
        rw [if_pos (by omega : i ≤ c)]
      · rw [if_neg hieq]
        simp only [deinter, List.length_nil]
        rw [if_neg (by omega : ¬ i ≤ c)]

theorem deinter_length_mul {α : Type} (channels c : Nat) (hc : c < channels) :
    ∀ (m : Nat) (l : List α), l.length = m * channels →
      (deinter channels 0 l c).length = m := by
  intro m
  induction m with
  | zero =>
    intro l hl
    simp only [Nat.zero_mul] at hl
    rw [List.eq_nil_of_length_eq_zero hl]
    rfl
  | succ k ih =>
    intro l hl
    have hch : 0 < channels := by omega
    have hmul : (k + 1) * channels = k * channels + channels := by ring
    have hlen : channels ≤ l.length := by omega
    have hsplit : l = l.take channels ++ l.drop channels := (List.take_append_drop _ _).symm
    have htk : (l.take channels).length = channels := by
      rw [List.length_take]
      omega
    have hblock := deinter_block channels c hc (l.take channels) 0 hch (by omega)
    rw [if_pos (Nat.zero_le c)] at hblock
    have hdk : (l.drop channels).length = k * channels := by
      rw [List.length_drop]
      omega
    conv_lhs => rw [hsplit]
    rw [deinter_append, List.length_append, hblock, htk]
    have hshift : deinter channels (0 + channels) (l.drop channels) c =
        deinter channels 0 (l.drop channels) c := deinter_shift channels c _ 0
    rw [hshift, ih (l.drop channels) hdk]
    omega

theorem deinter_length_div {α : Type} (channels c : Nat) (hc : c < channels) (l : List α)
    (hmod : l.length % channels = 0) :
    (deinter channels 0 l c).length = l.length / channels := by
  have hlm : l.length = (l.length / channels) * channels := by
    rw [Nat.div_mul_cancel (Nat.dvd_of_mod_eq_zero hmod)]
  exact deinter_length_mul channels c hc (l.length / channels) l hlm

theorem pushLoop_length {α : Type} (ml channels : Nat) (samples : List α) :
    ∀ (bufs : List (VecDeque α)) (i : Nat),
      (SampleBuffer.pushLoop ml channels bufs samples i).length = bufs.length := by
  induction samples with
  | nil => intro bufs i; rfl
  | cons s t ih =>
    intro bufs i
    have hstep : SampleBuffer.pushLoop ml channels bufs (s :: t) i =
        SampleBuffer.pushLoop ml channels
          (bufs.set (i % channels)
            (SampleBuffer.pushSample ml (bufs.getD (i % channels) (VecDeque.mk ml 0 [])) s))
          t (i + 1) := rfl
    rw [hstep, ih, List.length_set]

theorem pushLoop_getD {α : Type} (ml channels : Nat) (d0 : VecDeque α) (samples : List α) :
    ∀ (bufs : List (VecDeque α)) (i c : Nat), c < bufs.length → channels ≤ bufs.length →
      (SampleBuffer.pushLoop ml channels bufs samples i).getD c d0 =
        List.foldl (SampleBuffer.pushSample ml) (bufs.getD c d0)
          (deinter channels i samples c) := by
  induction samples with
  | nil => intro bufs i c hc hch; rfl
  | cons s t ih =>
    intro bufs i c hc hch
    have hstep : SampleBuffer.pushLoop ml channels bufs (s :: t) i =
        SampleBuffer.pushLoop ml channels
          (bufs.set (i % channels)
            (SampleBuffer.pushSample ml (bufs.getD (i % channels) (VecDeque.mk ml 0 [])) s))
          t (i + 1) := rfl
    have hdstep : deinter channels i (s :: t) c =
        if i % channels = c then s :: deinter channels (i + 1) t c
        else deinter channels (i + 1) t c := rfl
    rw [hstep, hdstep]
    rw [ih _ (i + 1) c (by rw [List.length_set]; exact hc) (by rw [List.length_set]; exact hch)]
    by_cases hic : i % channels = c
    · rw [if_pos hic, List.foldl_cons]
      rw [hic, getD_set_self _ _ _ _ hc]
      rw [getD_irrel _ _ (VecDeque.mk ml 0 []) d0 hc]
    · rw [if_neg hic, getD_set_other _ _ _ _ _ hic]

theorem length_lastN {α : Type} (n : Nat) (l : List α) :
    (lastN n l).length = min n l.length := by
  unfold lastN
  rw [List.length_drop]
  omega

theorem new_wf {α : Type} (ch rate ml : Nat) (hml : 1 ≤ ml) :
    (SampleBuffer.new α ch rate ml).wf := by
  unfold SampleBuffer.new SampleBuffer.wf SampleBuffer.len
  refine ⟨List.length_replicate _ _, fun c hc => ?_⟩
  simp only at hc
  rw [getD_replicate_lt _ _ _ _ (by simpa using hc)]
  exact ⟨rfl, hml, by simp⟩

theorem new_inv {α : Type} (ch rate ml : Nat) :
    (SampleBuffer.new α ch rate ml).inv (fun _ => []) := by
  unfold SampleBuffer.new SampleBuffer.inv SampleBuffer.len lastN
  refine ⟨List.length_replicate _ _, fun c hc => ?_⟩
  simp only at hc
  rw [getD_replicate_lt _ _ _ _ (by simpa using hc)]
  simp

/-- C2 amended: for every SampleBuffer with positive capacity (max_len ≥ 1;
with max_len = 0 the eviction test only fires on an empty ring and retention
fails, see the counterexample), every successful push of a frame preserves the
buffer invariant: sample_count grows by frame length / channels regardless of
capacity, and each channel ring holds exactly the last min(sample_count,
max_len) samples ever pushed to that channel in arrival order, where the
sample at flat index i of the frame goes to channel i mod channels. -/
theorem sample_buffer_push_inv_c2 {α : Type} (b b2 : SampleBuffer α) (f : Frame α)
    (hist : Nat → List α)
    (hml : 1 ≤ b.max_len)
    (hinv : SampleBuffer.inv b hist)
    (hpush : b.push f = some b2) :
    b2.sample_count = b.sample_count + f.samples.length / b.channels ∧
    SampleBuffer.inv b2 (fun c => hist c ++ deinter b.channels 0 f.samples c) := by
  unfold SampleBuffer.push at hpush
  split_ifs at hpush with hcond
  · obtain ⟨hfc, hfr, hch0, hmod⟩ := hcond
    have hb2 : b2 = { b with
        sample_count := b.sample_count + f.samples.length / b.channels,
        buffers := SampleBuffer.pushLoop b.max_len b.channels b.buffers f.samples 0 } := by
      injection hpush with h
      exact h.symm
    subst hb2
    obtain ⟨hblen, hy⟩ := hinv
    refine ⟨rfl, ?_, ?_⟩
    · simpa [pushLoop_length] using hblen
    · intro c hc
      simp only at hc
      obtain ⟨hHlen, helems⟩ := hy c hc
      have hq : (deinter b.channels 0 f.samples c).length = f.samples.length / b.channels :=
        deinter_length_div b.channels c hc f.samples hmod
      have hgetD := pushLoop_getD b.max_len b.channels (VecDeque.mk 0 0 []) f.samples
        b.buffers 0 c (by rw [hblen]; exact hc) (by rw [hblen])
      have helemlen : ((b.buffers).getD c (VecDeque.mk 0 0 [])).elems.length ≤ b.max_len := by
        rw [helems, length_lastN]
        unfold SampleBuffer.len
        omega
      have hfold := foldl_pushSample_elems b.max_len hml
        (deinter b.channels 0 f.samples c) ((b.buffers).getD c (VecDeque.mk 0 0 [])) helemlen
      dsimp only
      constructor
      · rw [List.length_append, hHlen, hq]
      · rw [hgetD, hfold, helems, length_lastN]
        unfold lastN SampleBuffer.len
        dsimp only
        have hsplit : List.drop ((hist c).length - min b.sample_count b.max_len) (hist c) ++
              deinter b.channels 0 f.samples c =
            (hist c ++ deinter b.channels 0 f.samples c).drop
              ((hist c).length - min b.sample_count b.max_len) :=
          (List.drop_append_of_le_length (Nat.sub_le _ _)).symm
        rw [hsplit, List.drop_drop]
        congr 1
        rw [List.length_append, hHlen, hq]
        omega

theorem push_wf {α : Type} (b b2 : SampleBuffer α) (f : Frame α)
    (hwf : b.wf) (hpush : b.push f = some b2) : b2.wf := by
  unfold SampleBuffer.push at hpush
  split_ifs at hpush with hcond
  obtain ⟨hfc, hfr, hch0, hmod⟩ := hcond
  have hb2 : b2 = { b with
      sample_count := b.sample_count + f.samples.length / b.channels,
      buffers := SampleBuffer.pushLoop b.max_len b.channels b.buffers f.samples 0 } := by
    injection hpush with h
    exact h.symm
  subst hb2
  obtain ⟨hblen, hy⟩ := hwf
  have hml : 1 ≤ b.max_len := by
    obtain ⟨-, hh, -⟩ := hy 0 hch0
    omega
  refine ⟨by simpa [pushLoop_length] using hblen, fun c hc => ?_⟩
  simp only at hc
  obtain ⟨hcap, hhead, hlen⟩ := hy c hc
  have hq : (deinter b.channels 0 f.samples c).length = f.samples.length / b.channels :=
    deinter_length_div b.channels c hc f.samples hmod
  have hgetD := pushLoop_getD b.max_len b.channels (VecDeque.mk 0 0 []) f.samples
    b.buffers 0 c (by rw [hblen]; exact hc) (by rw [hblen])
  have helemlen : ((b.buffers).getD c (VecDeque.mk 0 0 [])).elems.length ≤ b.max_len := by
    rw [hlen]
    unfold SampleBuffer.len
    omega
  have hphys := foldl_pushSample_phys b.max_len (deinter b.channels 0 f.samples c)
    ((b.buffers).getD c (VecDeque.mk 0 0 [])) hcap hhead
  have hfold := foldl_pushSample_elems b.max_len hml
    (deinter b.channels 0 f.samples c) ((b.buffers).getD c (VecDeque.mk 0 0 [])) helemlen
  dsimp only
  refine ⟨?_, ?_, ?_⟩
  · rw [hgetD]
    exact hphys.1
  · rw [hgetD]
    exact hphys.2
  · rw [hgetD, hfold, List.length_drop, List.length_append, hq, hlen]
    unfold SampleBuffer.len
    dsimp only
    omega

theorem get?_eq_some_getD {α : Type} (l : List α) (n : Nat) (d : α) (h : n < l.length) :
    l.get? n = some (l.getD n d) := by
  rw [List.getD_eq_getElem l d h]
  rw [List.get?_eq_getElem?]
  exact List.getElem?_eq_getElem h

theorem get_channel_spec {α : Type} (b : SampleBuffer α) (A len c : Nat)
    (hwf : b.wf) (hc : c < b.channels)
    (hstart : b.oldest_sample_index ≤ A) (hend : A + len ≤ b.sample_count) :
    ∃ s1 s2,
      (BufferPeriod.mk b A len).get_channel c = some (s1, s2) ∧
      s1 ++ s2 = ((SampleBuffer.retained b c).drop (A - b.oldest_sample_index)).take len ∧
      s1.length + s2.length = len ∧
      (s2 = [] ↔ ¬ (A - b.oldest_sample_index < b.firstSegLen c ∧
        b.firstSegLen c < A - b.oldest_sample_index + len)) := by
  obtain ⟨hblen, hy⟩ := hwf
  obtain ⟨hcap, hhead, hlen⟩ := hy c hc
  set d := b.buffers.getD c (VecDeque.mk 0 0 []) with hd
  have hget : b.buffers.get? c = some d :=
    get?_eq_some_getD _ _ _ (by rw [hblen]; exact hc)
  have hnsc : b.len ≤ b.sample_count := Nat.min_le_left _ _
  have hnml : b.len ≤ b.max_len := Nat.min_le_right _ _
  have holdest : b.oldest_sample_index = b.sample_count - b.len := rfl
  have hltE : b.sample_count - A ≤ b.len := by omega
  have hret : b.retained c = d.elems := by
    unfold SampleBuffer.retained
    rw [← hd]
  have hstartval : b.len - (b.sample_count - A) = A - b.oldest_sample_index := by omega
  have hstople : b.len - (b.sample_count - A) + len ≤ b.len := by omega
  set S := b.len - (b.sample_count - A) with hS
  unfold BufferPeriod.get_channel
  rw [hget]
  dsimp only
  rw [if_pos hltE, hret, ← hstartval]
  by_cases hone : d.head + d.elems.length ≤ d.cap
  · have hsl : d.as_slices = (d.elems, []) := by
      unfold VecDeque.as_slices
      rw [if_pos hone]
    have hfsl : b.firstSegLen c = d.elems.length := by
      unfold SampleBuffer.firstSegLen
      rw [← hd, hsl]
    rw [hsl, hfsl]
    dsimp only
    by_cases hS1 : S < d.elems.length
    · rw [if_pos hS1, if_pos (by omega : S + len ≤ d.elems.length)]
      have hslice : listSlice d.elems S (S + len) = some ((d.elems.drop S).take len) := by
        unfold listSlice
        rw [if_pos ⟨by omega, by omega⟩]
        congr 2
        omega
      rw [hslice]
      refine ⟨_, [], rfl, ?_, ?_, ?_⟩
      · rw [List.append_nil]
      · rw [List.length_take, List.length_drop, List.length_nil]
        omega
      · simp only [List.length_nil]
        constructor
        · intro _
          omega
        · intro _
          trivial
    · rw [if_neg hS1]
      have hSeq : S = d.elems.length := by omega
      have hlen0 : len = 0 := by omega
      have hslice : listSlice ([] : List α) (S - d.elems.length) (S + len - d.elems.length) =
          some [] := by
        unfold listSlice
        rw [if_pos ⟨by omega, by simp; omega⟩]
        simp
      rw [hslice]
      refine ⟨[], [], rfl, ?_, by simp [hlen0], ?_⟩
      · rw [hlen0, List.take_zero, List.nil_append]
      · constructor
        · intro _
          omega
        · intro _
          trivial
  · have hsl : d.as_slices = (d.elems.take (d.cap - d.head), d.elems.drop (d.cap - d.head)) := by
      unfold VecDeque.as_slices
      rw [if_neg hone]
    set K := d.cap - d.head with hK
    have hK1 : 1 ≤ K := by omega
    have hKlt : K < d.elems.length := by omega
    have htklen : (d.elems.take K).length = K := by
      rw [List.length_take]
      omega
    have hfsl : b.firstSegLen c = K := by
      unfold SampleBuffer.firstSegLen
      rw [← hd, hsl]
      exact htklen
    rw [hsl, hfsl]
    dsimp only
    rw [htklen]
    by_cases hcase1 : S < K
    · by_cases hcase2 : S + len ≤ K
      · rw [if_pos hcase1, if_pos hcase2]
        have hslice : listSlice (d.elems.take K) S (S + len) =
            some ((d.elems.drop S).take len) := by
          unfold listSlice
          rw [if_pos ⟨by omega, by rw [htklen]; omega⟩]
          rw [List.drop_take, List.take_take]
          have hmin : (S + len - S) ⊓ (K - S) = len := by
            omega
          rw [hmin]
        rw [hslice]
        refine ⟨_, [], rfl, ?_, ?_, ?_⟩
        · rw [List.append_nil]
        · rw [List.length_take, List.length_drop, List.length_nil]
          omega
        · constructor
          · intro _
            omega
          · intro _
            trivial
      · rw [if_pos hcase1, if_neg hcase2]
        have hs1 : listSlice (d.elems.take K) S K = some ((d.elems.drop S).take (K - S)) := by
          unfold listSlice
          rw [if_pos ⟨by omega, by rw [htklen]⟩]
          rw [List.drop_take, List.take_take]
          have hmin : (K - S) ⊓ (K - S) = K - S := inf_idem _
          rw [hmin]
        have hs2 : listSlice (d.elems.drop K) 0 (S + len - K) =
            some ((d.elems.drop K).take (S + len - K)) := by
          unfold listSlice
          rw [if_pos ⟨Nat.zero_le _, by rw [List.length_drop]; omega⟩]
          rw [List.drop_zero, Nat.sub_zero]
        rw [hs1, hs2]
        refine ⟨_, _, rfl, ?_, ?_, ?_⟩
        · have hdd : d.elems.drop K = (d.elems.drop S).drop (K - S) := by
            rw [List.drop_drop]
            congr 1
            omega
          rw [hdd, ← List.take_add]
          congr 1
          omega
        · rw [List.length_take, List.length_take, List.length_drop, List.length_drop]
          omega
        · have hs2len : ((d.elems.drop K).take (S + len - K)).length = S + len - K := by
            rw [List.length_take, List.length_drop]
            omega
          constructor
          · intro hnil
            rw [hnil] at hs2len
            simp at hs2len
            omega
          · intro hcontra
            exact absurd ⟨hcase1, by omega⟩ hcontra
    · rw [if_neg hcase1]
      have hslice : listSlice (d.elems.drop K) (S - K) (S + len - K) =
          some ((d.elems.drop S).take len) := by
        unfold listSlice
        rw [if_pos ⟨by omega, by rw [List.length_drop]; omega⟩]
        rw [List.drop_drop]
        have h1 : K + (S - K) = S := by omega
        have h2 : S + len - K - (S - K) = len := by omega
        rw [h1, h2]
      rw [hslice]
      refine ⟨_, [], rfl, ?_, ?_, ?_⟩
      · rw [List.append_nil]
      · rw [List.length_take, List.length_drop, List.length_nil]
        omega
      · constructor
        · intro _
          omega
        · intro _
          trivial

theorem get_window_inv {α : Type} (b : SampleBuffer α) (p : StreamPeriod)
    (w : BufferPeriod α) (hw : b.get_window p = some w) :
    w.buffer = b ∧ w.start_sample_num = p.start_index ∧ w.len = p.sample_count ∧
    p.sample_rate = b.sample_rate ∧
    b.oldest_sample_index ≤ w.start_sample_num ∧
    w.start_sample_num + w.len ≤ b.sample_count := by
  unfold SampleBuffer.get_window Instant.index StreamPeriod.start StreamPeriod.endTime at hw
  dsimp only at hw
  by_cases h1 : p.sample_rate = b.sample_rate
  · rw [if_pos h1] at hw
    dsimp only at hw
    by_cases h2 : b.oldest_sample_index ≤ p.start_index
    · rw [if_pos h2, if_pos h1] at hw
      dsimp only at hw
      by_cases h3 : p.start_index + p.sample_count ≤ b.sample_count
      · rw [if_pos h3] at hw
        injection hw with h
        subst h
        dsimp only
        refine ⟨rfl, rfl, by omega, h1, h2, by omega⟩
      · rw [if_neg h3] at hw
        cases hw
    · rw [if_neg h2] at hw
      cases hw
  · rw [if_neg h1] at hw
    dsimp only at hw
    cases hw

/-- C1: for every well-formed SampleBuffer and every requested period passing
the availability checks of get_window, get_channel c (for any channel c)
returns physical slices whose concatenation in time order equals the
retained samples of that channel over the logical range, with total slice length equal to the
window length, and with the second slice nonempty exactly when the window
straddles the wrap point of the ring (start offset before the end of the older
physical segment, end offset past it); in particular a single slice is
returned whenever the window lies wholly in one physical segment. -/
theorem window_channel_slices_c1 {α : Type} (b : SampleBuffer α) (p : StreamPeriod)
    (w : BufferPeriod α) (c : Nat)
    (hwf : b.wf) (hc : c < b.channels) (hw : b.get_window p = some w) :
    ∃ s1 s2,
      w.get_channel c = some (s1, s2) ∧
      s1 ++ s2 = ((SampleBuffer.retained b c).drop
        (w.start_sample_num - b.oldest_sample_index)).take w.len ∧
      s1.length + s2.length = w.len ∧
      (s2 = [] ↔ ¬ (w.start_sample_num - b.oldest_sample_index < b.firstSegLen c ∧
        b.firstSegLen c < w.start_sample_num - b.oldest_sample_index + w.len)) := by
  obtain ⟨hbuf, -, -, -, hstart, hend⟩ := get_window_inv b p w hw
  obtain ⟨wb, ws, wl⟩ := w
  dsimp only at hbuf hstart hend ⊢
  subst hbuf
  exact get_channel_spec _ ws wl c hwf hc hstart hend

theorem new_pb_inv {α : Type} (b : SampleBuffer α) (plen pstride : Nat)
    (pb : PeriodBuffer α) (hwf : b.wf)
    (hnew : PeriodBuffer.new b plen pstride = some pb) : pb.wfInv := by
  unfold PeriodBuffer.new at hnew
  split_ifs at hnew with hcnt
  · injection hnew with h
    subst h
    refine ⟨hwf, le_refl _, ?_⟩
    unfold SampleBuffer.oldest_sample_index SampleBuffer.len
    dsimp only
    omega

theorem step_pb_inv {α : Type} (pb pb2 : PeriodBuffer α)
    (hinv : pb.wfInv) (hstep : PBStep pb pb2) : pb2.wfInv := by
  obtain ⟨hwf, hle, hold⟩ := hinv
  cases hstep with
  | push _ f hpush =>
    unfold PeriodBuffer.push at hpush
    cases hbp : pb.buffer.push f with
    | none => rw [hbp] at hpush; cases hpush
    | some b2 =>
      rw [hbp] at hpush
      dsimp only at hpush
      split_ifs at hpush with hcheck
      · injection hpush with h
        subst h
        exact ⟨push_wf pb.buffer b2 f hwf hbp, hle, hcheck⟩
  | next =>
    unfold PeriodBuffer.next
    by_cases hhn : pb.has_next
    · rw [if_pos hhn]
      unfold PeriodBuffer.wfInv
      dsimp only
      exact ⟨hwf, by omega, by omega⟩
    · rw [if_neg hhn]
      exact ⟨hwf, hle, hold⟩

theorem reach_pb_inv {α : Type} (pb pb2 : PeriodBuffer α)
    (hinv : pb.wfInv) (hreach : PBReach pb pb2) : pb2.wfInv := by
  induction hreach with
  | refl => exact hinv
  | tail _ hstep ih => exact step_pb_inv _ _ ih hstep

/-- C10: for every PeriodBuffer built by new on a well-formed buffer and
driven by any interleaving of successful pushes and next calls, every period
returned by next lies entirely within the retained sample range of the buffer
(its start is at least oldest_sample_index and its end at most sample_count),
and consequently get_channel on it succeeds for every channel: the checked
subtraction of len_to_buffer_end and all subsequent slice indexing stay in
bounds. -/
theorem period_safety_c10 {α : Type} (b0 : SampleBuffer α) (plen pstride : Nat)
    (pb0 pb : PeriodBuffer α) (w : BufferPeriod α)
    (hwf : b0.wf)
    (hnew : PeriodBuffer.new b0 plen pstride = some pb0)
    (hreach : PBReach pb0 pb)
    (hnext : (pb.next).1 = some w) :
    w.buffer = pb.buffer ∧
    pb.buffer.oldest_sample_index ≤ w.start_sample_num ∧
    w.start_sample_num + w.len ≤ pb.buffer.sample_count ∧
    ∀ c, c < pb.buffer.channels → (w.get_channel c).isSome = true := by
  have hinv := reach_pb_inv pb0 pb (new_pb_inv b0 plen pstride pb0 hwf hnew) hreach
  obtain ⟨hbwf, hle, hold⟩ := hinv
  unfold PeriodBuffer.next at hnext
  by_cases hhn : pb.has_next
  · rw [if_pos hhn] at hnext
    dsimp only at hnext
    injection hnext with h
    subst h
    have hsc : pb.next_period_end ≤ pb.buffer.sample_count := by
      unfold PeriodBuffer.has_next at hhn
      exact of_decide_eq_true hhn
    dsimp only
    refine ⟨rfl, hold, by omega, fun c hc => ?_⟩
    obtain ⟨s1, s2, heq, -, -, -⟩ := get_channel_spec pb.buffer
      (pb.next_period_end - pb.period_len) pb.period_len c hbwf hc hold (by omega)
    rw [heq]
    rfl
  · rw [if_neg hhn] at hnext
    cases hnext

/-- C1 witness: the theorem applied to the capacity-8 ring fed 0..11 and the
window [6, 10), whose physical representation is the split ([6,7],[8,9]). -/
theorem window_channel_slices_c1_witness :
    SampleBuffer.wf demoBuf ∧
    (SampleBuffer.new Int 1 1 8).push
        { channels := 1, sample_rate := 1,
          samples := [0, 1, 2, 3, 4, 5, 6, 7, 8, 9, 10, 11] } = some demoBuf ∧
    demoBuf.get_window { start_index := 6, sample_count := 4, sample_rate := 1 } =
      some demoWin ∧
    demoWin.get_channel 0 = some ([6, 7], [8, 9]) ∧
    (∃ s1 s2, demoWin.get_channel 0 = some (s1, s2) ∧
      s1 ++ s2 = ((SampleBuffer.retained demoBuf 0).drop
        (demoWin.start_sample_num - demoBuf.oldest_sample_index)).take demoWin.len ∧
      s1.length + s2.length = demoWin.len ∧
      (s2 = [] ↔ ¬ (demoWin.start_sample_num - demoBuf.oldest_sample_index <
          demoBuf.firstSegLen 0 ∧
        demoBuf.firstSegLen 0 < demoWin.start_sample_num -
          demoBuf.oldest_sample_index + demoWin.len))) :=
  ⟨by unfold SampleBuffer.wf; decide, by decide, by decide, by decide,
   window_channel_slices_c1 demoBuf
     { start_index := 6, sample_count := 4, sample_rate := 1 }
     demoWin 0 (by unfold SampleBuffer.wf; decide) (by decide) (by decide)⟩

/-- C2 witness: the amended theorem applied to the de-interlacing example -
pushing [1,2,3,4] as 2 channels into a fresh capacity-100 buffer. -/
theorem sample_buffer_push_inv_c2_witness :
    (SampleBuffer.new Int 2 44100 100).push
        { channels := 2, sample_rate := 44100, samples := [1, 2, 3, 4] } =
      some c2demoBuf ∧
    c2demoBuf.sample_count = (SampleBuffer.new Int 2 44100 100).sample_count + 4 / 2 ∧
    SampleBuffer.inv c2demoBuf
      (fun c => (fun _ => ([] : List Int)) c ++ deinter 2 0 [1, 2, 3, 4] c) :=
  ⟨by decide,
   (sample_buffer_push_inv_c2 (SampleBuffer.new Int 2 44100 100) c2demoBuf
     { channels := 2, sample_rate := 44100, samples := [1, 2, 3, 4] }
     (fun _ => []) (by decide) (by unfold SampleBuffer.inv; decide) (by decide)).1,
   (sample_buffer_push_inv_c2 (SampleBuffer.new Int 2 44100 100) c2demoBuf
     { channels := 2, sample_rate := 44100, samples := [1, 2, 3, 4] }
     (fun _ => []) (by decide) (by unfold SampleBuffer.inv; decide) (by decide)).2⟩

/-- C10 witness: the theorem applied to the sequencer scenario - fresh
length-4/stride-2 sequencer, one push of samples 1..7, first next call. -/
theorem period_safety_c10_witness :
    SampleBuffer.wf (SampleBuffer.new Int 1 44100 100) ∧
    PeriodBuffer.new (SampleBuffer.new Int 1 44100 100) 4 2 = some c10pb0 ∧
    PBReach c10pb0 demoPB ∧
    (demoPB.next).1 = some c10win ∧
    (c10win.buffer = demoPB.buffer ∧
     demoPB.buffer.oldest_sample_index ≤ c10win.start_sample_num ∧
     c10win.start_sample_num + c10win.len ≤ demoPB.buffer.sample_count ∧
     ∀ c, c < demoPB.buffer.channels → (c10win.get_channel c).isSome = true) :=
  ⟨by unfold SampleBuffer.wf; decide, by decide,
   PBReach.tail (PBReach.refl _) (PBStep.push _ _ c10frame (by decide)),
   by decide,
   period_safety_c10 (SampleBuffer.new Int 1 44100 100) 4 2 c10pb0 demoPB c10win
     (by unfold SampleBuffer.wf; decide) (by decide)
     (PBReach.tail (PBReach.refl _) (PBStep.push _ _ c10frame (by decide)))
     (by decide)⟩
